import Mathlib

/-!
# Verification of the TeeworldsGoAPI binary codec

Shallow embedding of the repository's packet/codec functions and proofs of the
specification's claims about them.

Byte buffers (`[]byte`) are modelled as `List Nat`, each element a byte value.
A Go slice is modelled with capacity equal to its length, so slicing or
indexing past the end is a runtime fault, modelled by `GoPanic`.  Go's `int`
is modelled by `Int` (the values handled here never approach 2^63, so 64-bit
wrap-around never occurs); intermediate non-negative bit manipulation is done
on `Nat`.
-/

/-- Runtime faults of the Go runtime relevant here: slicing `b[:n]` past the
capacity, and indexing `l[i]` at or past the length. -/
inductive GoPanic where
  | sliceOutOfRange
  | indexOutOfRange
  deriving DecidableEq, Repr

/-- Go `result ^= -sign` where `sign` is 0 or 1: XOR of a 64-bit int with `0`
is the identity and XOR with `-1` (all ones) is bitwise NOT, which on
mathematical integers is `fun r => -(r + 1)`. -/
def goXorNegSign (sign : Nat) (r : Nat) : Int :=
  if sign = 1 then -((r : Int) + 1) else (r : Int)

/-- Embedding of `unpackInt` from `src/main.go` (lines 40-81).

The Go source sets `err` when `len(b) < 4` but does **not** return, and then
evaluates `list := b[:4]`, which faults for a buffer of fewer than 4 bytes
(capacity = length model); hence the `.error .sliceOutOfRange` branch.  The
unrolled decoding loop reads `list[i]` for `i` up to 4, but `list` has length
4, so the fifth read `list[4]` faults (`.error .indexOutOfRange`) — that path
is taken exactly when bytes 0-3 all have their continuation bit set. -/
def unpackInt (b : List Nat) : Except GoPanic (Int × List Nat) :=
  if b.length < 4 then
    -- err is assigned here in the source, but execution continues and
    -- `b[:4]` faults before the error can be returned.
    .error .sliceOutOfRange
  else
    let list := b.take 4
    let b0 := list.getD 0 0
    let sign : Nat := (b0 >>> 6) &&& 1
    let r0 : Nat := b0 &&& 0b00111111
    if b0 &&& 0b10000000 = 0 then
      .ok (goXorNegSign sign r0, b.drop 1)
    else
      let b1 := list.getD 1 0
      let r1 : Nat := r0 ||| ((b1 &&& 0b01111111) <<< 6)
      if b1 &&& 0b10000000 = 0 then
        .ok (goXorNegSign sign r1, b.drop 2)
      else
        let b2 := list.getD 2 0
        let r2 : Nat := r1 ||| ((b2 &&& 0b01111111) <<< (6 + 7))
        if b2 &&& 0b10000000 = 0 then
          .ok (goXorNegSign sign r2, b.drop 3)
        else
          let b3 := list.getD 3 0
          let r3 : Nat := r2 ||| ((b3 &&& 0b01111111) <<< (6 + 7 + 7))
          if b3 &&& 0b10000000 = 0 then
            .ok (goXorNegSign sign r3, b.drop 4)
          else
            -- Go: `i++; result |= int(list[4]&0x7f) << (6+7+7+7)` — but
            -- `len(list) = 4`, so `list[4]` panics.
            .error .indexOutOfRange

/-- The magnitude contributed by the data bytes after byte 0 of a VarInt
encoding: 7-bit chunks in increasing significance, first chunk at bit
position `shift`. -/
def varIntMagTail (shift : Nat) : List Nat → Nat
  | [] => 0
  | c :: rest => ((c &&& 0b01111111) <<< shift) ||| varIntMagTail (shift + 7) rest

/-- The unsigned magnitude denoted by the byte list of a VarInt encoding:
the low 6 bits of byte 0 followed by 7-bit chunks of the following bytes,
in increasing significance. -/
def varIntMag : List Nat → Nat
  | [] => 0
  | b0 :: rest => (b0 &&& 0b00111111) ||| varIntMagTail 6 rest

/-- The signed value denoted by the byte list of a VarInt encoding: the
magnitude, bitwise-NOT-ed (`m ↦ -(m+1)`) when the sign flag (bit 6 of
byte 0) is set. -/
def varIntValue (bs : List Nat) : Int :=
  match bs with
  | [] => 0
  | b0 :: _ => if b0 &&& 0b01000000 = 0 then (varIntMag bs : Int) else -((varIntMag bs : Int) + 1)

/-- Well-formedness of the first `n` bytes (1 ≤ n ≤ 4) of a buffer headed by
`b0 b1 b2 b3` as an `n`-byte VarInt encoding: each non-final byte has the
continuation bit (bit 7) set, the final byte has it clear. -/
def wfVarIntHead (n b0 b1 b2 b3 : Nat) : Prop :=
  match n with
  | 1 => b0 &&& 128 = 0
  | 2 => b0 &&& 128 ≠ 0 ∧ b1 &&& 128 = 0
  | 3 => b0 &&& 128 ≠ 0 ∧ b1 &&& 128 ≠ 0 ∧ b2 &&& 128 = 0
  | 4 => b0 &&& 128 ≠ 0 ∧ b1 &&& 128 ≠ 0 ∧ b2 &&& 128 ≠ 0 ∧ b3 &&& 128 = 0
  | _ => False

/-- The sign flag read by the code, `(b0 >>> 6) &&& 1`, is 1 exactly when
bit 6 of `b0` is set. -/
theorem signFlag_eq (x : Nat) :
    (x >>> 6) &&& 1 = (if x &&& 64 = 0 then 0 else 1) := by
  have h1 : (x >>> 6) &&& 1 = x / 64 % 2 := by
    rw [Nat.and_one_is_mod, Nat.shiftRight_eq_div_pow]
  have h2 : x &&& 64 = (x.testBit 6).toNat * 64 := by
    have := Nat.and_two_pow x 6
    norm_num at this
    exact this
  rw [h1, h2, Nat.testBit_to_div_mod]
  rcases Nat.mod_two_eq_zero_or_one (x / 64) with h | h <;> simp [h]

/-- `goXorNegSign` with the code's sign flag agrees with the spec-side
sign fold of `varIntValue`. -/
theorem goXorNegSign_eq (b0 : Nat) (m : Nat) :
    goXorNegSign ((b0 >>> 6) &&& 1) m =
      (if b0 &&& 64 = 0 then (m : Int) else -((m : Int) + 1)) := by
  rw [goXorNegSign, signFlag_eq]
  by_cases h : b0 &&& 64 = 0 <;> simp [h]

/-- Computation of `unpackInt` on a buffer of length at least 4, with the
list bookkeeping (`b[:4]`, indexing, `b[i:]`) evaluated away. -/
theorem unpackInt_cons (b0 b1 b2 b3 : Nat) (rest : List Nat) :
    unpackInt (b0 :: b1 :: b2 :: b3 :: rest) =
      (if b0 &&& 128 = 0 then
        .ok (goXorNegSign ((b0 >>> 6) &&& 1) (b0 &&& 63), b1 :: b2 :: b3 :: rest)
      else if b1 &&& 128 = 0 then
        .ok (goXorNegSign ((b0 >>> 6) &&& 1)
          ((b0 &&& 63) ||| ((b1 &&& 127) <<< 6)), b2 :: b3 :: rest)
      else if b2 &&& 128 = 0 then
        .ok (goXorNegSign ((b0 >>> 6) &&& 1)
          ((b0 &&& 63) ||| ((b1 &&& 127) <<< 6) ||| ((b2 &&& 127) <<< 13)), b3 :: rest)
      else if b3 &&& 128 = 0 then
        .ok (goXorNegSign ((b0 >>> 6) &&& 1)
          ((b0 &&& 63) ||| ((b1 &&& 127) <<< 6) ||| ((b2 &&& 127) <<< 13) |||
            ((b3 &&& 127) <<< 20)), rest)
      else .error .indexOutOfRange) := rfl

/-- C1: for every byte buffer of length at least 4 whose leading bytes form a
well-formed VarInt encoding of 1 to 4 bytes (each non-final byte has
continuation bit 7 set, the final byte has it clear), `unpackInt` returns the
encoded value — the magnitude assembled from the 6-bit first chunk and
successive 7-bit chunks in increasing significance, bitwise-NOT-ed when the
sign flag (bit 6 of byte 0) is set — together with `rest` equal to the input
buffer with exactly the consumed encoding bytes removed from the front, and
no error. -/
theorem unpackInt_wellFormed (n b0 b1 b2 b3 : Nat) (rest : List Nat)
    (hw : wfVarIntHead n b0 b1 b2 b3) :
    unpackInt (b0 :: b1 :: b2 :: b3 :: rest) =
      .ok (varIntValue (List.take n (b0 :: b1 :: b2 :: b3 :: rest)),
           List.drop n (b0 :: b1 :: b2 :: b3 :: rest)) := by
  rw [unpackInt_cons]
  match n, hw with
  | 1, h0 =>
    rw [if_pos (show b0 &&& 128 = 0 from h0), goXorNegSign_eq]
    simp [varIntValue, varIntMag, varIntMagTail]
  | 2, ⟨h0, h1⟩ =>
    rw [if_neg h0, if_pos h1, goXorNegSign_eq]
    simp [varIntValue, varIntMag, varIntMagTail]
  | 3, ⟨h0, h1, h2⟩ =>
    rw [if_neg h0, if_neg h1, if_pos h2, goXorNegSign_eq]
    simp [varIntValue, varIntMag, varIntMagTail, Nat.or_assoc]
  | 4, ⟨h0, h1, h2, h3⟩ =>
    rw [if_neg h0, if_neg h1, if_neg h2, if_pos h3, goXorNegSign_eq]
    simp [varIntValue, varIntMag, varIntMagTail, Nat.or_assoc]

/-- Witness for C1 at the concrete 2-byte encoding `[0x81, 0x05]` inside a
4-byte buffer: value `1 ||| (5 <<< 6) = 321`, two bytes consumed. -/
theorem unpackInt_wellFormed_witness :
    unpackInt [129, 5, 0, 0] = .ok (321, [0, 0]) :=
  unpackInt_wellFormed 2 129 5 0 0 [] ⟨by decide, by decide⟩

/-- C2 (counter-evidence): on the empty buffer `unpackInt` does not return the
insufficient-data error as an explicit result — the Go code assigns `err` but
fails to return, and the subsequent `b[:4]` reads past the end of the buffer
(a runtime fault). -/
theorem unpackInt_nil_panics : unpackInt [] = .error .sliceOutOfRange := rfl

/-- C3 (counter-evidence): on a well-formed maximum-length 5-byte encoding
(continuation bit set in bytes 0-3) `unpackInt` does not consume 5 bytes and
return the assembled value — the code restricts itself to `list := b[:4]` and
its own fifth-chunk line indexes `list[4]`, a runtime index-out-of-range
fault.  The input is the 5-byte encoding of 604508192 that the repository's
own `TestVarInt_Unpack` expects to decode successfully. -/
theorem unpackInt_fiveByte_panics :
    unpackInt [0b10100000, 0b11000000, 0b11000000, 0b11000000, 0b00000100] =
      .error .indexOutOfRange := rfl

/-- C9 (counter-evidence): on a 3-byte buffer a failed `unpackInt` does not
leave the cursor unchanged (returning the whole buffer as `rest` alongside the
error): the code reads past the end of the buffer instead of returning after
setting the error. -/
theorem unpackInt_short_not_unchanged :
    unpackInt [0, 0, 0] = .error .sliceOutOfRange := rfl

/-- Embedding of `packControlMessageWithToken` from `src/main.go` (lines
16-38): a zeroed buffer of `4 + 3 + 512` bytes with the header flag byte,
the server token (big-endian, bytes 3-6), the control-message subtype
(byte 7) and the client token (big-endian, bytes 8-11) written into it.
Go's `byte(x >> k)` truncation is `(x >>> k) % 256`. -/
def packControlMessageWithToken (tokenServer tokenClient : Nat) : List Nat :=
  let b := List.replicate (4 + 3 + 512) 0
  let b := b.set 0 ((1 <<< 2) &&& 0b11111100)
  let b := b.set 3 ((tokenServer >>> 24) % 256)
  let b := b.set 4 ((tokenServer >>> 16) % 256)
  let b := b.set 5 ((tokenServer >>> 8) % 256)
  let b := b.set 6 (tokenServer % 256)
  let b := b.set 7 5
  let b := b.set 8 ((tokenClient >>> 24) % 256)
  let b := b.set 9 ((tokenClient >>> 16) % 256)
  let b := b.set 10 ((tokenClient >>> 8) % 256)
  let b := b.set 11 (tokenClient % 256)
  b

/-- Embedding of `headerConnectionless` from `src/main.go` (lines 83-102):
9 bytes, flag/version byte followed by the two tokens big-endian. -/
def headerConnectionless (tokenServer tokenClient : Nat) : List Nat :=
  let b := List.replicate 9 0
  let b := b.set 0 (((8 <<< 2) &&& 0b11111100) ||| (1 &&& 0b00000011))
  let b := b.set 1 ((tokenServer >>> 24) % 256)
  let b := b.set 2 ((tokenServer >>> 16) % 256)
  let b := b.set 3 ((tokenServer >>> 8) % 256)
  let b := b.set 4 (tokenServer % 256)
  let b := b.set 5 ((tokenClient >>> 24) % 256)
  let b := b.set 6 ((tokenClient >>> 16) % 256)
  let b := b.set 7 ((tokenClient >>> 8) % 256)
  let b := b.set 8 (tokenClient % 256)
  b

/-- The length error of `unpackControlMessageWithToken`, carrying the
offending message length. -/
inductive CtrlMsgError where
  | tooSmall (n : Nat)
  deriving DecidableEq, Repr

/-- Embedding of `unpackControlMessageWithToken` from `src/main.go` (lines
104-112): requires at least 12 bytes, reads the client token big-endian from
bytes 3-6 and the server token big-endian from bytes 8-11, and returns the
pair `(tokenServer, tokenClient)`. -/
def unpackControlMessageWithToken (message : List Nat) : Except CtrlMsgError (Nat × Nat) :=
  if message.length < 12 then .error (.tooSmall message.length)
  else
    let tokenClient := ((message.getD 3 0) <<< 24) + ((message.getD 4 0) <<< 16) +
      ((message.getD 5 0) <<< 8) + message.getD 6 0
    let tokenServer := ((message.getD 8 0) <<< 24) + ((message.getD 9 0) <<< 16) +
      ((message.getD 10 0) <<< 8) + message.getD 11 0
    .ok (tokenServer, tokenClient)

/-- The four big-endian base-256 digits of a 32-bit value, most significant
first. -/
def be32 (x : Nat) : List Nat :=
  [x / 2 ^ 24 % 256, x / 2 ^ 16 % 256, x / 2 ^ 8 % 256, x % 256]

/-- The 32-bit value read big-endian from four bytes. -/
def beVal (a b c d : Nat) : Nat := a * 2 ^ 24 + b * 2 ^ 16 + c * 2 ^ 8 + d

/-- Computation of `packControlMessageWithToken`: the twelve written bytes
followed by the untouched zero padding. -/
theorem packControlMessageWithToken_eq (s c : Nat) :
    packControlMessageWithToken s c =
      [4, 0, 0, (s >>> 24) % 256, (s >>> 16) % 256, (s >>> 8) % 256, s % 256,
       5, (c >>> 24) % 256, (c >>> 16) % 256, (c >>> 8) % 256, c % 256] ++
      List.replicate 507 0 := rfl

/-- Computation of `headerConnectionless`. -/
theorem headerConnectionless_eq (s c : Nat) :
    headerConnectionless s c =
      [33, (s >>> 24) % 256, (s >>> 16) % 256, (s >>> 8) % 256, s % 256,
       (c >>> 24) % 256, (c >>> 16) % 256, (c >>> 8) % 256, c % 256] := rfl

/-- Computation of `unpackControlMessageWithToken` on a buffer of length at
least 12. -/
theorem unpackControlMessageWithToken_cons
    (x0 x1 x2 x3 x4 x5 x6 x7 x8 x9 x10 x11 : Nat) (tail : List Nat) :
    unpackControlMessageWithToken
        (x0 :: x1 :: x2 :: x3 :: x4 :: x5 :: x6 :: x7 :: x8 :: x9 :: x10 :: x11 :: tail) =
      .ok ((x8 <<< 24) + (x9 <<< 16) + (x10 <<< 8) + x11,
           (x3 <<< 24) + (x4 <<< 16) + (x5 <<< 8) + x6) := rfl

/-- Reassembling the four big-endian byte truncations of a 32-bit value, as
`unpackControlMessageWithToken` does, recovers the value. -/
theorem beBytes_reassemble (x : Nat) (hx : x < 2 ^ 32) :
    (((x >>> 24) % 256) <<< 24) + (((x >>> 16) % 256) <<< 16) +
      (((x >>> 8) % 256) <<< 8) + x % 256 = x := by
  rw [Nat.shiftRight_eq_div_pow, Nat.shiftRight_eq_div_pow, Nat.shiftRight_eq_div_pow,
      Nat.shiftLeft_eq, Nat.shiftLeft_eq, Nat.shiftLeft_eq]
  norm_num
  omega

/-- C6: `unpackControlMessageWithToken` returns a length error if and only if
the input message is shorter than 12 bytes; on every input of at least 12
bytes it succeeds, returning the client token read big-endian from bytes 3-6
and the server token read big-endian from bytes 8-11. -/
theorem unpackControlMessageWithToken_spec (message : List Nat) :
    (message.length < 12 →
      unpackControlMessageWithToken message = .error (.tooSmall message.length)) ∧
    (12 ≤ message.length →
      unpackControlMessageWithToken message =
        .ok (beVal (message.getD 8 0) (message.getD 9 0) (message.getD 10 0)
               (message.getD 11 0),
             beVal (message.getD 3 0) (message.getD 4 0) (message.getD 5 0)
               (message.getD 6 0))) := by
  constructor
  · intro h
    rw [unpackControlMessageWithToken, if_pos h]
  · intro h
    rw [unpackControlMessageWithToken, if_neg (by omega)]
    simp [beVal, Nat.shiftLeft_eq]

/-- Witness for C6: both branches at concrete inputs. -/
theorem unpackControlMessageWithToken_spec_witness :
    unpackControlMessageWithToken [0, 0, 0] = .error (.tooSmall 3) ∧
    unpackControlMessageWithToken [9, 9, 9, 1, 2, 3, 4, 9, 5, 6, 7, 8] =
      .ok (beVal 5 6 7 8, beVal 1 2 3 4) :=
  ⟨(unpackControlMessageWithToken_spec [0, 0, 0]).1 (by decide),
   (unpackControlMessageWithToken_spec [9, 9, 9, 1, 2, 3, 4, 9, 5, 6, 7, 8]).2 (by decide)⟩

/-- C7: for every pair of token values, `packControlMessageWithToken` returns
a buffer of exactly 4+3+512 = 519 bytes in which byte 0 is the control-packet
flag byte `(1 <<< 2) &&& 0xFC = 4`, bytes 3-6 are the server token big-endian,
byte 7 is the control-message subtype 5, bytes 8-11 are the client token
big-endian, and every remaining byte (bytes 1-2 and the 507 trailing request
data bytes) is zero. -/
theorem packControlMessageWithToken_layout (s c : Nat) :
    packControlMessageWithToken s c =
      [4, 0, 0] ++ be32 s ++ [5] ++ be32 c ++ List.replicate 507 0 ∧
    (packControlMessageWithToken s c).length = 519 := by
  constructor
  · rw [packControlMessageWithToken_eq]
    simp only [be32, List.cons_append, List.nil_append, Nat.shiftRight_eq_div_pow]
  · rw [packControlMessageWithToken_eq]
    simp only [List.length_append, List.length_cons, List.length_nil, List.length_replicate]

/-- C8: for every pair of token values, `headerConnectionless` returns a
buffer of exactly 9 bytes in which byte 0 equals
`((flag <<< 2) &&& 0xFC) ||| (version &&& 0x03)` for the connectionless flag
8 and protocol version 1, bytes 1-4 are the server token big-endian, and
bytes 5-8 are the client/response token big-endian. -/
theorem headerConnectionless_layout (s c : Nat) :
    headerConnectionless s c =
      (((8 <<< 2) &&& 0xFC) ||| (1 &&& 0x03)) :: (be32 s ++ be32 c) ∧
    (headerConnectionless s c).length = 9 := by
  constructor
  · rw [headerConnectionless_eq]
    simp only [be32, List.cons_append, List.nil_append, Nat.shiftRight_eq_div_pow]
    have h0 : (8 <<< 2 &&& 252 ||| 1 &&& 3 : Nat) = 33 := by decide
    rw [h0]
  · rw [headerConnectionless_eq]
    simp only [List.length_cons, List.length_nil]

/-- C10: for every pair of 32-bit token values `s` and `c`, parsing a packed
control message swaps the token roles: the packer writes the server token at
bytes 3-6, which the parser reads as the client token, and vice versa, so the
result is `(tokenServer, tokenClient) = (c, s)`. -/
theorem unpack_packControlMessageWithToken (s c : Nat)
    (hs : s < 2 ^ 32) (hc : c < 2 ^ 32) :
    unpackControlMessageWithToken (packControlMessageWithToken s c) =
      .ok (c, s) := by
  rw [packControlMessageWithToken_eq]
  simp only [List.cons_append, List.nil_append]
  rw [unpackControlMessageWithToken_cons, beBytes_reassemble s hs, beBytes_reassemble c hc]

/-- Witness for C10 at concrete tokens. -/
theorem unpack_packControlMessageWithToken_witness :
    unpackControlMessageWithToken (packControlMessageWithToken 305419896 1) =
      .ok (1, 305419896) :=
  unpack_packControlMessageWithToken 305419896 1 (by norm_num) (by norm_num)

/-- Error result of the spec-modelled `VarInt.Unpack`. -/
inductive VarIntError where
  | insufficientData
  deriving DecidableEq, Repr

/-- Modelled from the spec: the data bytes emitted by `VarInt.Pack` after
byte 0 (§4.1) — the implementation lives in the repository's `compression`
package, which is absent from `src/` (only its tests are present).  Each byte
carries the next 7 magnitude bits (bits 6-0) with the continuation flag in
bit 7; at most `fuel` bytes are emitted (4 when called from `varIntPack`,
giving the 5-byte maximum), and the last permitted byte carries no
continuation flag. -/
def packChunks : Nat → Nat → List Nat
  | 0, _ => []
  | f + 1, m =>
    if f = 0 ∨ m / 128 = 0 then [m % 128]
    else (128 + m % 128) :: packChunks f (m / 128)

/-- Modelled from the spec: the byte buffer `VarInt.Pack value` appends for
a sign and magnitude (§4.1): byte 0 = continuation·128 + sign·64 + low 6
magnitude bits, then up to four 7-bit chunks in increasing significance. -/
def varIntPackMag (sign m : Nat) : List Nat :=
  let cont : Nat := if m / 64 = 0 then 0 else 1
  (cont * 128 + sign * 64 + m % 64) ::
    (if m / 64 = 0 then [] else packChunks 4 (m / 64))

/-- Modelled from the spec: `VarInt.Pack` (§4.1).  Negative values are stored
with a one's-complement fold: the magnitude encoded is `NOT value = -(v+1)`
and the sign flag is set. -/
def varIntPack (v : Int) : List Nat :=
  if v < 0 then varIntPackMag 1 (-(v + 1)).toNat else varIntPackMag 0 v.toNat

/-- The decode-side sign fold of the spec: when the sign flag is set the
result is the bitwise NOT of the magnitude, `-(m+1)`. -/
def varIntSignFold (sign m : Nat) : Int :=
  if sign = 1 then -((m : Int) + 1) else (m : Int)

/-- Modelled from the spec: decoding of the data bytes after byte 0 (§4.1):
7-bit chunks at significance `2 ^ shift`; a byte with continuation bit 0 ends
the value; when `fuel = 0` the byte is the 5th of the encoding and decoding
stops regardless of its continuation bit; a buffer ending mid-value is
`InsufficientData`. -/
def unpackChunks : Nat → List Nat → Nat → Nat → Except VarIntError (Nat × List Nat)
  | _, [], _, _ => .error .insufficientData
  | 0, c :: rest, acc, shift => .ok (acc + c % 128 * 2 ^ shift, rest)
  | f + 1, c :: rest, acc, shift =>
    let acc2 := acc + c % 128 * 2 ^ shift
    if c / 128 % 2 = 0 then .ok (acc2, rest)
    else unpackChunks f rest acc2 (shift + 7)

/-- Modelled from the spec: `VarInt.Unpack` (§4.1) decodes and removes one
integer from the front of the buffer: sign flag = bit 6 of byte 0, low 6
magnitude bits from byte 0, then 7-bit chunks while the continuation bit is
set, stopping at the latest after the 5th byte; the magnitude is sign-folded.
An empty buffer (and a buffer ending mid-value) is `InsufficientData`. -/
def varIntUnpack (b : List Nat) : Except VarIntError (Int × List Nat) :=
  match b with
  | [] => .error .insufficientData
  | b0 :: rest =>
    if b0 / 128 % 2 = 0 then .ok (varIntSignFold (b0 / 64 % 2) (b0 % 64), rest)
    else
      (unpackChunks 3 rest (b0 % 64) 6).map
        (fun p => (varIntSignFold (b0 / 64 % 2) p.1, p.2))

/-- Computation of `packChunks` at positive fuel. -/
theorem packChunks_succ (f m : Nat) :
    packChunks (f + 1) m =
      if f = 0 ∨ m / 128 = 0 then [m % 128]
      else (128 + m % 128) :: packChunks f (m / 128) := rfl

/-- Computation of `unpackChunks` at fuel 0 (the 5th byte of an encoding). -/
theorem unpackChunks_zero (c : Nat) (rest : List Nat) (acc shift : Nat) :
    unpackChunks 0 (c :: rest) acc shift = .ok (acc + c % 128 * 2 ^ shift, rest) := rfl

/-- Computation of `unpackChunks` at positive fuel. -/
theorem unpackChunks_succ (f c : Nat) (rest : List Nat) (acc shift : Nat) :
    unpackChunks (f + 1) (c :: rest) acc shift =
      if c / 128 % 2 = 0 then .ok (acc + c % 128 * 2 ^ shift, rest)
      else unpackChunks f rest (acc + c % 128 * 2 ^ shift) (shift + 7) := rfl

/-- Round trip of the chunk encoder/decoder: decoding the bytes emitted for a
magnitude `m < 128 ^ (f + 1)` (followed by anything) recovers `m` at the
current significance and consumes exactly the emitted bytes. -/
theorem unpackChunks_packChunks (f : Nat) :
    ∀ m acc shift tail, m < 128 ^ (f + 1) →
      unpackChunks f (packChunks (f + 1) m ++ tail) acc shift =
        .ok (acc + m * 2 ^ shift, tail) := by
  induction f with
  | zero =>
    intro m acc shift tail hm
    have hm128 : m < 128 := by norm_num at hm; omega
    have hmod : m % 128 = m := Nat.mod_eq_of_lt hm128
    rw [packChunks_succ, if_pos (Or.inl rfl), List.cons_append, List.nil_append,
      unpackChunks_zero]
    simp only [hmod]
  | succ f ih =>
    intro m acc shift tail hm
    rw [packChunks_succ]
    by_cases h128 : m / 128 = 0
    · have hm128 : m < 128 := by omega
      have hmod : m % 128 = m := Nat.mod_eq_of_lt hm128
      rw [if_pos (Or.inr h128), List.cons_append, List.nil_append, unpackChunks_succ,
        if_pos (by omega)]
      simp only [hmod]
    · have hdiv : m / 128 < 128 ^ (f + 1) := by
        apply Nat.div_lt_of_lt_mul
        calc m < 128 ^ (f + 1 + 1) := hm
          _ = 128 * 128 ^ (f + 1) := by ring
      rw [if_neg (by simp [h128]), List.cons_append, unpackChunks_succ,
        if_neg (by omega), ih (m / 128) _ (shift + 7) tail hdiv]
      have e : acc + (128 + m % 128) % 128 * 2 ^ shift + m / 128 * 2 ^ (shift + 7) =
          acc + m * 2 ^ shift := by
        have e1 : (128 + m % 128) % 128 = m % 128 := by omega
        have hsplit : m % 128 + m / 128 * 128 = m := by omega
        rw [e1, pow_add]
        calc acc + m % 128 * 2 ^ shift + m / 128 * (2 ^ shift * 2 ^ 7)
            = acc + (m % 128 + m / 128 * 128) * 2 ^ shift := by ring
          _ = acc + m * 2 ^ shift := by rw [hsplit]
      rw [e]

/-- Computation of `varIntPackMag`: one byte when the magnitude fits in 6
bits, otherwise byte 0 with the continuation flag followed by the 7-bit
chunks. -/
theorem varIntPackMag_eq (sign m : Nat) :
    varIntPackMag sign m =
      if m / 64 = 0 then [sign * 64 + m % 64]
      else (128 + sign * 64 + m % 64) :: packChunks 4 (m / 64) := by
  unfold varIntPackMag
  by_cases h : m / 64 = 0 <;> simp [h]

/-- Computation of `varIntUnpack` on a non-empty buffer. -/
theorem varIntUnpack_cons (b0 : Nat) (rest : List Nat) :
    varIntUnpack (b0 :: rest) =
      (if b0 / 128 % 2 = 0 then .ok (varIntSignFold (b0 / 64 % 2) (b0 % 64), rest)
       else
        (unpackChunks 3 rest (b0 % 64) 6).map
          (fun p => (varIntSignFold (b0 / 64 % 2) p.1, p.2))) := rfl

/-- Unpacking the packed encoding of a sign and a magnitude below `2 ^ 34`
(6 + 4·7 magnitude bits, the 5-byte maximum) recovers the sign-folded value
and consumes the whole encoding. -/
theorem varIntUnpack_varIntPackMag (sign m : Nat) (hsign : sign ≤ 1) (hm : m < 2 ^ 34) :
    varIntUnpack (varIntPackMag sign m) = .ok (varIntSignFold sign m, []) := by
  by_cases h64 : m / 64 = 0
  · rw [varIntPackMag_eq, if_pos h64, varIntUnpack_cons, if_pos (by omega)]
    have hsign' : (sign * 64 + m % 64) / 64 % 2 = sign := by omega
    have hm0 : (sign * 64 + m % 64) % 64 = m := by omega
    rw [hsign', hm0]
  · rw [varIntPackMag_eq, if_neg h64, varIntUnpack_cons, if_neg (by omega)]
    have hdiv : m / 64 < 128 ^ (3 + 1) := by
      have : (128 : Nat) ^ (3 + 1) = 268435456 := by norm_num
      have h34 : (2 : Nat) ^ 34 = 17179869184 := by norm_num
      omega
    rw [show packChunks 4 (m / 64) = packChunks 4 (m / 64) ++ [] from
      (List.append_nil _).symm]
    rw [unpackChunks_packChunks 3 (m / 64) ((128 + sign * 64 + m % 64) % 64) 6 [] hdiv]
    simp only [Except.map]
    have hsign' : (128 + sign * 64 + m % 64) / 64 % 2 = sign := by omega
    have harg : (128 + sign * 64 + m % 64) % 64 + m / 64 * 2 ^ 6 = m := by omega
    rw [hsign', harg]

/-- C4 (spec-modelled): round-trip law of the VarInt codec — for every
integer `v` in the range `-(2^34) ≤ v < 2^34` (which covers the claim's
±2×10⁷ and the boundary values 0, 63, 64, 2²⁰−1, 2²⁰, 2²⁷−1, 2²⁷),
unpacking the VarInt encoding of `v` yields `v` again and consumes exactly
the encoding. -/
theorem varIntUnpack_varIntPack (v : Int) (h1 : -(2 ^ 34) ≤ v) (h2 : v < 2 ^ 34) :
    varIntUnpack (varIntPack v) = .ok (v, []) := by
  have h34i : (2 : Int) ^ 34 = 17179869184 := by norm_num
  have h34n : (2 : Nat) ^ 34 = 17179869184 := by norm_num
  unfold varIntPack
  by_cases hv : v < 0
  · rw [if_pos hv, varIntUnpack_varIntPackMag 1 (-(v + 1)).toNat (by omega) (by omega)]
    have hfold : varIntSignFold 1 (-(v + 1)).toNat = v := by
      rw [varIntSignFold, if_pos rfl]
      have ht : (((-(v + 1)).toNat : Int)) = -(v + 1) := Int.toNat_of_nonneg (by omega)
      rw [ht]; ring
    rw [hfold]
  · rw [if_neg hv, varIntUnpack_varIntPackMag 0 v.toNat (by omega) (by omega)]
    have hfold : varIntSignFold 0 v.toNat = v := by
      rw [varIntSignFold, if_neg (by omega)]
      exact Int.toNat_of_nonneg (by omega)
    rw [hfold]

/-- Witness for C4 at the boundary values 2²⁷ (a 5-byte encoding) and
-2×10⁷. -/
theorem varIntUnpack_varIntPack_witness :
    varIntUnpack (varIntPack 134217728) = .ok (134217728, []) ∧
    varIntUnpack (varIntPack (-20000000)) = .ok (-20000000, []) :=
  ⟨varIntUnpack_varIntPack 134217728 (by norm_num) (by norm_num),
   varIntUnpack_varIntPack (-20000000) (by norm_num) (by norm_num)⟩

/-- Modelled from the spec: the Huffman tree (§4.3) — a binary tree whose
leaves carry the symbols 0-255 plus the end-of-message sentinel 256. -/
inductive HTree where
  | leaf (sym : Nat)
  | node (l r : HTree)
  deriving DecidableEq, Repr

/-- The symbols at the leaves of a tree (analysis helper). -/
def HTree.syms : HTree → List Nat
  | .leaf s => [s]
  | .node l r => l.syms ++ r.syms

/-- Modelled from the spec: the canonical code of a symbol — the bit path
from the root to its leaf, left edge = bit 0 (`false`), right edge = bit 1
(`true`) (§4.3 step 3). -/
def HTree.path : HTree → Nat → Option (List Bool)
  | .leaf t, s => if t = s then some [] else none
  | .node l r, s =>
    match l.path s with
    | some p => some (false :: p)
    | none =>
      match r.path s with
      | some p => some (true :: p)
      | none => none

/-- Modelled from the spec: the decompressor's tree walk — consume one bit
at a time, branching left/right, until a leaf is reached; `none` when the
bits run out inside an internal node (§4.3 Decompress). -/
def HTree.walk : HTree → List Bool → Option (Nat × List Bool)
  | .leaf s, bs => some (s, bs)
  | .node _ _, [] => none
  | .node l _, false :: bs => l.walk bs
  | .node _ r, true :: bs => r.walk bs

theorem HTree.walk_path (t : HTree) (s : Nat) (p : List Bool)
    (h : t.path s = some p) : ∀ bs, t.walk (p ++ bs) = some (s, bs) := by
  induction t generalizing p with
  | leaf t0 =>
    intro bs
    rw [HTree.path] at h
    by_cases he : t0 = s
    · rw [if_pos he] at h
      cases h
      rw [List.nil_append, HTree.walk, he]
    · rw [if_neg he] at h
      cases h
  | node l r ihl ihr =>
    intro bs
    rw [HTree.path] at h
    cases hl : l.path s with
    | some q =>
      rw [hl] at h
      cases h
      rw [List.cons_append, HTree.walk]
      exact ihl q hl bs
    | none =>
      rw [hl] at h
      cases hr : r.path s with
      | some q =>
        rw [hr] at h
        cases h
        rw [List.cons_append, HTree.walk]
        exact ihr q hr bs
      | none =>
        rw [hr] at h
        cases h

theorem HTree.path_of_mem (t : HTree) (s : Nat) (h : s ∈ t.syms) :
    ∃ p, t.path s = some p := by
  induction t with
  | leaf t0 =>
    rw [HTree.syms, List.mem_singleton] at h
    exact ⟨[], by rw [HTree.path, if_pos h.symm]⟩
  | node l r ihl ihr =>
    rw [HTree.syms, List.mem_append] at h
    rcases h with h | h
    · obtain ⟨p, hp⟩ := ihl h
      exact ⟨false :: p, by rw [HTree.path, hp]⟩
    · cases hl : l.path s with
      | some q => exact ⟨false :: q, by rw [HTree.path, hl]⟩
      | none =>
        obtain ⟨p, hp⟩ := ihr h
        exact ⟨true :: p, by rw [HTree.path, hl, hp]⟩

theorem HTree.path_node_ne_nil (l r : HTree) (s : Nat) (p : List Bool)
    (h : (HTree.node l r).path s = some p) : p ≠ [] := by
  rw [HTree.path] at h
  cases hl : l.path s with
  | some q => rw [hl] at h; cases h; simp
  | none =>
    rw [hl] at h
    cases hr : r.path s with
    | some q => rw [hr] at h; cases h; simp
    | none => rw [hr] at h; cases h

/-- Modelled from the spec: one insertion step of the stable sort by
descending frequency (§4.3 step 2): an element moves left past exactly the
elements of strictly smaller frequency, so equal-frequency nodes retain
their relative input order. -/
def insertByFreq (x : HTree × Nat) : List (HTree × Nat) → List (HTree × Nat)
  | [] => [x]
  | y :: ys => if y.2 < x.2 then x :: y :: ys else y :: insertByFreq x ys

/-- Modelled from the spec: the stable sort of the working node list by
frequency descending (§4.3 step 2; the Go `bubbleSort` being modelled is in
the compression package absent from `src/`). -/
def sortByFreqDesc : List (HTree × Nat) → List (HTree × Nat)
  | [] => []
  | x :: xs => insertByFreq x (sortByFreqDesc xs)

theorem length_insertByFreq (x : HTree × Nat) (l : List (HTree × Nat)) :
    (insertByFreq x l).length = l.length + 1 := by
  induction l with
  | nil => rfl
  | cons y ys ih =>
    rw [insertByFreq]
    by_cases h : y.2 < x.2
    · rw [if_pos h]; simp
    · rw [if_neg h]; simp [ih]

theorem mem_insertByFreq (a x : HTree × Nat) (l : List (HTree × Nat)) :
    a ∈ insertByFreq x l ↔ a = x ∨ a ∈ l := by
  induction l with
  | nil => simp [insertByFreq]
  | cons y ys ih =>
    rw [insertByFreq]
    by_cases h : y.2 < x.2
    · rw [if_pos h]; simp
    · rw [if_neg h]; simp [ih]; tauto

theorem length_sortByFreqDesc (l : List (HTree × Nat)) :
    (sortByFreqDesc l).length = l.length := by
  induction l with
  | nil => rfl
  | cons x xs ih => rw [sortByFreqDesc, length_insertByFreq, ih]; rfl

theorem mem_sortByFreqDesc (a : HTree × Nat) (l : List (HTree × Nat)) :
    a ∈ sortByFreqDesc l ↔ a ∈ l := by
  induction l with
  | nil => simp [sortByFreqDesc]
  | cons x xs ih => rw [sortByFreqDesc, mem_insertByFreq]; simp [ih]

/-- Modelled from the spec: one construction round (§4.3 step 2): sort by
frequency descending, remove the two lowest-frequency nodes (the last two),
combine them into an internal node whose frequency is their sum, and put the
new node back into the list. -/
def mergeStep (l : List (HTree × Nat)) : List (HTree × Nat) :=
  match (sortByFreqDesc l).reverse with
  | a :: b :: rest => rest.reverse ++ [(HTree.node b.1 a.1, b.2 + a.2)]
  | _ => sortByFreqDesc l

theorem mergeStep_eq_two (l : List (HTree × Nat)) (a b : HTree × Nat)
    (rest : List (HTree × Nat)) (h : (sortByFreqDesc l).reverse = a :: b :: rest) :
    mergeStep l = rest.reverse ++ [(HTree.node b.1 a.1, b.2 + a.2)] := by
  unfold mergeStep
  rw [h]

theorem mergeStep_eq_nil (l : List (HTree × Nat))
    (h : (sortByFreqDesc l).reverse = []) : mergeStep l = sortByFreqDesc l := by
  unfold mergeStep
  rw [h]

theorem mergeStep_eq_single (l : List (HTree × Nat)) (a : HTree × Nat)
    (h : (sortByFreqDesc l).reverse = [a]) : mergeStep l = sortByFreqDesc l := by
  unfold mergeStep
  rw [h]

/-- `s` occurs in one of the trees of the working list. -/
def hasSym (l : List (HTree × Nat)) (s : Nat) : Prop :=
  ∃ p ∈ l, s ∈ p.1.syms

theorem length_mergeStep (l : List (HTree × Nat)) (h : 2 ≤ l.length) :
    (mergeStep l).length + 1 = l.length := by
  have hlen : 2 ≤ (sortByFreqDesc l).reverse.length := by
    rw [List.length_reverse, length_sortByFreqDesc]; exact h
  match hrev : (sortByFreqDesc l).reverse with
  | [] => rw [hrev] at hlen; simp at hlen
  | [a] => rw [hrev] at hlen; simp at hlen
  | a :: b :: rest =>
    rw [mergeStep_eq_two l a b rest hrev]
    have hc : rest.length + 2 = l.length := by
      have h2 := congrArg List.length hrev
      rw [List.length_reverse, length_sortByFreqDesc] at h2
      simp at h2
      omega
    simp
    omega

theorem hasSym_mergeStep (l : List (HTree × Nat)) (s : Nat) (h : hasSym l s) :
    hasSym (mergeStep l) s := by
  obtain ⟨p, hp, hsym⟩ := h
  have hp' : p ∈ (sortByFreqDesc l).reverse := by
    rw [List.mem_reverse, mem_sortByFreqDesc]; exact hp
  match hrev : (sortByFreqDesc l).reverse with
  | [] => rw [hrev] at hp'; simp at hp'
  | [a] =>
    rw [mergeStep_eq_single l a hrev]
    exact ⟨p, (mem_sortByFreqDesc p l).mpr hp, hsym⟩
  | a :: b :: rest =>
    rw [mergeStep_eq_two l a b rest hrev]
    rw [hrev] at hp'
    rcases List.mem_cons.mp hp' with rfl | hp''
    · exact ⟨(HTree.node b.1 p.1, b.2 + p.2), by simp, by simp [HTree.syms, hsym]⟩
    · rcases List.mem_cons.mp hp'' with rfl | hp3
      · exact ⟨(HTree.node p.1 a.1, p.2 + a.2), by simp, by simp [HTree.syms, hsym]⟩
      · exact ⟨p, by simp [hp3], hsym⟩

/-- Modelled from the spec: iterate `mergeStep` until one node remains —
256 rounds starting from the 257 leaves. -/
def buildLoop : Nat → List (HTree × Nat) → List (HTree × Nat)
  | 0, l => l
  | f + 1, l => buildLoop f (mergeStep l)

/-- Modelled from the spec: one leaf per symbol, holding its frequency from
the table; the sentinel (symbol 256) gets a fixed non-zero frequency so it
is never starved out of the tree (§4.3 step 1).  The default table is an
externally fixed constant absent from the repository, so the table is a
parameter. -/
def initialNodes (table : Nat → Nat) : List (HTree × Nat) :=
  (List.range 256).map (fun i => (HTree.leaf i, table i)) ++ [(HTree.leaf 256, 1)]

/-- Modelled from the spec: the canonical Huffman tree built by `Init` from
a frequency table (§4.3); after 256 merges a single node remains and is the
root (the fallback branch is unreachable). -/
def buildTree (table : Nat → Nat) : HTree :=
  match buildLoop 256 (initialNodes table) with
  | [t] => t.1
  | _ => .leaf 256

theorem length_buildLoop (f : Nat) :
    ∀ l : List (HTree × Nat), f < l.length →
      (buildLoop f l).length = l.length - f := by
  induction f with
  | zero => intro l _; rw [buildLoop]; omega
  | succ f ih =>
    intro l hf
    rw [buildLoop]
    have hm := length_mergeStep l (by omega)
    rw [ih (mergeStep l) (by omega)]
    omega

theorem hasSym_buildLoop (f : Nat) :
    ∀ l : List (HTree × Nat), ∀ s, hasSym l s → hasSym (buildLoop f l) s := by
  induction f with
  | zero => intro l s h; rw [buildLoop]; exact h
  | succ f ih =>
    intro l s h
    rw [buildLoop]
    exact ih (mergeStep l) s (hasSym_mergeStep l s h)

theorem length_initialNodes (table : Nat → Nat) :
    (initialNodes table).length = 257 := by
  rw [initialNodes]
  simp

theorem hasSym_initialNodes (table : Nat → Nat) (s : Nat) (hs : s ≤ 256) :
    hasSym (initialNodes table) s := by
  rcases Nat.lt_or_ge s 256 with h | h
  · exact ⟨(HTree.leaf s, table s), by
      rw [initialNodes, List.mem_append]
      exact Or.inl (List.mem_map.mpr ⟨s, List.mem_range.mpr h, rfl⟩),
      by rw [HTree.syms]; simp⟩
  · have h256 : s = 256 := by omega
    subst h256
    exact ⟨(HTree.leaf 256, 1), by rw [initialNodes, List.mem_append]; simp,
      by rw [HTree.syms]; simp⟩

theorem buildLoop_initial_single (table : Nat → Nat) :
    ∃ t : HTree × Nat, buildLoop 256 (initialNodes table) = [t] := by
  have hl : (buildLoop 256 (initialNodes table)).length = 1 := by
    rw [length_buildLoop 256 (initialNodes table) (by rw [length_initialNodes]; omega),
      length_initialNodes]
  exact List.length_eq_one.mp hl

theorem buildTree_eq_single (table : Nat → Nat) (t : HTree × Nat)
    (h : buildLoop 256 (initialNodes table) = [t]) : buildTree table = t.1 := by
  unfold buildTree
  rw [h]

theorem buildTree_syms (table : Nat → Nat) (s : Nat) (hs : s ≤ 256) :
    s ∈ (buildTree table).syms := by
  obtain ⟨t, ht⟩ := buildLoop_initial_single table
  have hsym : hasSym (buildLoop 256 (initialNodes table)) s :=
    hasSym_buildLoop 256 (initialNodes table) s (hasSym_initialNodes table s hs)
  rw [ht] at hsym
  obtain ⟨p, hp, hmem⟩ := hsym
  rw [List.mem_singleton] at hp
  subst hp
  rw [buildTree_eq_single table p ht]
  exact hmem

theorem buildTree_isNode (table : Nat → Nat) :
    ∃ l r, buildTree table = HTree.node l r := by
  cases ht : buildTree table with
  | node l r => exact ⟨l, r, rfl⟩
  | leaf s0 =>
    have h0 : (0 : Nat) ∈ (buildTree table).syms := buildTree_syms table 0 (by omega)
    have h256 : (256 : Nat) ∈ (buildTree table).syms := buildTree_syms table 256 (by omega)
    rw [ht, HTree.syms, List.mem_singleton] at h0 h256
    omega

/-- Modelled from the spec: the bitstream `Compress` emits — each input
byte's code in order, then the end-of-message sentinel's code (§4.3).
`none` only when a symbol has no leaf, which cannot happen for the built
tree. -/
def compressSyms (t : HTree) : List Nat → Option (List Bool)
  | [] => t.path 256
  | s :: rest =>
    match t.path s, compressSyms t rest with
    | some p, some ps => some (p ++ ps)
    | _, _ => none

/-- Modelled from the spec: the `Decompress` loop (§4.3) — walk the tree
from the root; a data-symbol leaf emits its byte and returns to the root,
the sentinel leaf stops; `none` models `TruncatedStream` (bits exhausted
mid-code, or fuel exhausted, which a node-rooted tree never does before the
bits run out since every code is at least one bit). -/
def decompressLoop : Nat → HTree → List Bool → List Nat → Option (List Nat)
  | 0, _, _, _ => none
  | fuel + 1, t, bits, acc =>
    match t.walk bits with
    | none => none
    | some (s, rest) => if s = 256 then some acc else decompressLoop fuel t rest (acc ++ [s])

theorem compressSyms_exists (t : HTree)
    (hall : ∀ s, s ≤ 256 → ∃ p, t.path s = some p) :
    ∀ x : List Nat, (∀ s ∈ x, s < 256) → ∃ bits, compressSyms t x = some bits := by
  intro x
  induction x with
  | nil =>
    intro _
    obtain ⟨p, hp⟩ := hall 256 (by omega)
    exact ⟨p, by rw [compressSyms]; exact hp⟩
  | cons s xs ih =>
    intro hx
    obtain ⟨p, hp⟩ := hall s (by have := hx s (by simp); omega)
    obtain ⟨ps, hps⟩ := ih (fun a ha => hx a (by simp [ha]))
    exact ⟨p ++ ps, by rw [compressSyms, hp, hps]⟩

theorem compressSyms_length_lt (t : HTree) (l r : HTree) (ht : t = HTree.node l r) :
    ∀ (x : List Nat) (bits : List Bool), compressSyms t x = some bits →
      x.length < bits.length := by
  intro x
  induction x with
  | nil =>
    intro bits hb
    rw [compressSyms] at hb
    have := HTree.path_node_ne_nil l r 256 bits (ht ▸ hb)
    simp
    exact List.length_pos.mpr this
  | cons s xs ih =>
    intro bits hb
    rw [compressSyms] at hb
    cases hp : t.path s with
    | none => rw [hp] at hb; cases hb
    | some p =>
      rw [hp] at hb
      cases hps : compressSyms t xs with
      | none => rw [hps] at hb; cases hb
      | some ps =>
        rw [hps] at hb
        cases hb
        have hplen : 0 < p.length :=
          List.length_pos.mpr (HTree.path_node_ne_nil l r s p (ht ▸ hp))
        have := ih ps hps
        simp
        omega

theorem decompressLoop_compressSyms (t : HTree) :
    ∀ (x : List Nat) (bits : List Bool) (fuel : Nat) (acc : List Nat) (junk : List Bool),
      compressSyms t x = some bits → (∀ s ∈ x, s < 256) → x.length < fuel →
      decompressLoop fuel t (bits ++ junk) acc = some (acc ++ x) := by
  intro x
  induction x with
  | nil =>
    intro bits fuel acc junk hb hx hfuel
    rw [compressSyms] at hb
    match fuel, hfuel with
    | f + 1, hf =>
      rw [decompressLoop, HTree.walk_path t 256 bits hb junk]
      simp
  | cons s xs ih =>
    intro bits fuel acc junk hb hx hfuel
    rw [compressSyms] at hb
    cases hp : t.path s with
    | none => rw [hp] at hb; cases hb
    | some p =>
      rw [hp] at hb
      cases hps : compressSyms t xs with
      | none => rw [hps] at hb; cases hb
      | some ps =>
        rw [hps] at hb
        cases hb
        match fuel, hfuel with
        | f + 1, hf =>
          have hs256 : s ≠ 256 := by have := hx s (by simp); omega
          rw [decompressLoop, List.append_assoc,
            HTree.walk_path t s p hp (ps ++ junk)]
          have hfx : xs.length < f := by simp at hf; omega
          have hih := ih ps f (acc ++ [s]) junk hps (fun a ha => hx a (by simp [ha])) hfx
          simp [hs256, hih]

/-- Modelled from the spec: packing eight bits into an output byte,
most-significant-bit first (§4.3 Compress). -/
def byteOfBits (b7 b6 b5 b4 b3 b2 b1 b0 : Bool) : Nat :=
  (cond b7 128 0) + (cond b6 64 0) + (cond b5 32 0) + (cond b4 16 0) +
  (cond b3 8 0) + (cond b2 4 0) + (cond b1 2 0) + (cond b0 1 0)

/-- Modelled from the spec: reading the bits of a byte MSB-first
(§4.3 Decompress). -/
def bitsOfByte (b : Nat) : List Bool :=
  [b.testBit 7, b.testBit 6, b.testBit 5, b.testBit 4,
   b.testBit 3, b.testBit 2, b.testBit 1, b.testBit 0]

/-- Modelled from the spec: the output bitstream packed into bytes, eight
bits per byte MSB-first; only ever applied to a bit list padded to a byte
boundary. -/
def bitsToBytes : List Bool → List Nat
  | b7 :: b6 :: b5 :: b4 :: b3 :: b2 :: b1 :: b0 :: rest =>
    byteOfBits b7 b6 b5 b4 b3 b2 b1 b0 :: bitsToBytes rest
  | _ => []

/-- Modelled from the spec: pad the final partial byte with zero bits
(§4.3 Compress). -/
def padBits (bits : List Bool) : List Bool :=
  bits ++ List.replicate ((8 - bits.length % 8) % 8) false

/-- Modelled from the spec: the bit sequence of the compressed bytes,
MSB-first per byte (§4.3 Decompress). -/
def bytesToBits (bytes : List Nat) : List Bool :=
  bytes.foldr (fun b acc => bitsOfByte b ++ acc) []

theorem bitsOfByte_byteOfBits : ∀ b7 b6 b5 b4 b3 b2 b1 b0 : Bool,
    bitsOfByte (byteOfBits b7 b6 b5 b4 b3 b2 b1 b0) =
      [b7, b6, b5, b4, b3, b2, b1, b0] := by
  decide

theorem bitsToBytes_cons (b7 b6 b5 b4 b3 b2 b1 b0 : Bool) (rest : List Bool) :
    bitsToBytes (b7 :: b6 :: b5 :: b4 :: b3 :: b2 :: b1 :: b0 :: rest) =
      byteOfBits b7 b6 b5 b4 b3 b2 b1 b0 :: bitsToBytes rest := rfl

theorem bytesToBits_cons (b : Nat) (bytes : List Nat) :
    bytesToBits (b :: bytes) = bitsOfByte b ++ bytesToBits bytes := rfl

theorem exists_eight_cons (l : List Bool) (h : 8 ∣ l.length) :
    l = [] ∨ ∃ b7 b6 b5 b4 b3 b2 b1 b0 rest,
      l = b7 :: b6 :: b5 :: b4 :: b3 :: b2 :: b1 :: b0 :: rest ∧ 8 ∣ rest.length := by
  rcases l with _ | ⟨a7, _ | ⟨a6, _ | ⟨a5, _ | ⟨a4, _ | ⟨a3, _ | ⟨a2, _ | ⟨a1, _ | ⟨a0, rest⟩⟩⟩⟩⟩⟩⟩⟩
  · exact Or.inl rfl
  all_goals simp at h
  all_goals try omega
  exact Or.inr ⟨a7, a6, a5, a4, a3, a2, a1, a0, rest, rfl, by omega⟩

theorem bytesToBits_bitsToBytes_le (n : Nat) :
    ∀ l : List Bool, l.length ≤ n → 8 ∣ l.length →
      bytesToBits (bitsToBytes l) = l := by
  induction n with
  | zero =>
    intro l hlen _
    have : l = [] := List.eq_nil_of_length_eq_zero (by omega)
    subst this
    rfl
  | succ n ih =>
    intro l hlen hdvd
    rcases exists_eight_cons l hdvd with rfl | ⟨b7, b6, b5, b4, b3, b2, b1, b0, rest, rfl, hdr⟩
    · rfl
    · rw [bitsToBytes_cons, bytesToBits_cons, bitsOfByte_byteOfBits,
        ih rest (by simp at hlen; omega) hdr]
      rfl

theorem bytesToBits_bitsToBytes (l : List Bool) (h : 8 ∣ l.length) :
    bytesToBits (bitsToBytes l) = l :=
  bytesToBits_bitsToBytes_le l.length l (Nat.le_refl _) h

theorem length_padBits_dvd (bits : List Bool) : 8 ∣ (padBits bits).length := by
  rw [padBits]
  simp
  omega

theorem padBits_eq_append (bits : List Bool) :
    padBits bits = bits ++ List.replicate ((8 - bits.length % 8) % 8) false := rfl

theorem bitsToBytes_ne_nil (l : List Bool) (hne : l ≠ []) (hdvd : 8 ∣ l.length) :
    bitsToBytes l ≠ [] := by
  rcases exists_eight_cons l hdvd with rfl | ⟨b7, b6, b5, b4, b3, b2, b1, b0, rest, rfl, _⟩
  · exact absurd rfl hne
  · rw [bitsToBytes_cons]
    simp

/-- Modelled from the spec: `Huffman.Compress` (§4.3) — the implementation
lives in the compression package absent from `src/` (only its tests are
present): emit each byte's code then the sentinel code, pad with zero bits
to a byte boundary, and pack MSB-first into bytes. -/
def huffmanCompress (table : Nat → Nat) (x : List Nat) : Option (List Nat) :=
  (compressSyms (buildTree table) x).map (fun bits => bitsToBytes (padBits bits))

/-- Modelled from the spec: `Huffman.Decompress` (§4.3) — walk the tree over
the bits of the input MSB-first, emitting bytes until the sentinel; the fuel
`bits.length + 1` is enough for any stream whose codes are at least one bit
long. -/
def huffmanDecompress (table : Nat → Nat) (bytes : List Nat) : Option (List Nat) :=
  decompressLoop ((bytesToBits bytes).length + 1) (buildTree table) (bytesToBits bytes) []

/-- C5 (spec-modelled): Huffman round-trip — for every byte sequence `x`
(each element below 256) and every frequency table, `Compress` succeeds,
its output is never empty, and `Decompress (Compress x) = x`.  Universality
over the table covers the unknown built-in default table. -/
theorem huffman_roundtrip (table : Nat → Nat) (x : List Nat) (hx : ∀ s ∈ x, s < 256) :
    ∃ compressed, huffmanCompress table x = some compressed ∧
      compressed ≠ [] ∧ huffmanDecompress table compressed = some x := by
  obtain ⟨lt, rt, htree⟩ := buildTree_isNode table
  have hall : ∀ s, s ≤ 256 → ∃ p, (buildTree table).path s = some p :=
    fun s hs => HTree.path_of_mem _ s (buildTree_syms table s hs)
  obtain ⟨bits, hbits⟩ := compressSyms_exists (buildTree table) hall x hx
  have hlt : x.length < bits.length :=
    compressSyms_length_lt (buildTree table) lt rt htree x bits hbits
  have hbne : bits ≠ [] := by
    intro hnil
    rw [hnil] at hlt
    simp at hlt
  refine ⟨bitsToBytes (padBits bits), ?_, ?_, ?_⟩
  · rw [huffmanCompress, hbits]
    rfl
  · refine bitsToBytes_ne_nil (padBits bits) ?_ (length_padBits_dvd bits)
    rw [padBits_eq_append]
    simp [hbne]
  · rw [huffmanDecompress,
      bytesToBits_bitsToBytes (padBits bits) (length_padBits_dvd bits),
      padBits_eq_append]
    have hfl : x.length <
        (bits ++ List.replicate ((8 - bits.length % 8) % 8) false).length + 1 := by
      simp
      omega
    have h2 := decompressLoop_compressSyms (buildTree table) x bits
      ((bits ++ List.replicate ((8 - bits.length % 8) % 8) false).length + 1) []
      (List.replicate ((8 - bits.length % 8) % 8) false) hbits hx hfl
    simpa using h2


/-- Witness for C5 at the all-ones table and the repository test's input
`[1, ..., 10]`. -/
theorem huffman_roundtrip_witness :
    ∃ compressed,
      huffmanCompress (fun _ => 1) [1, 2, 3, 4, 5, 6, 7, 8, 9, 10] = some compressed ∧
      compressed ≠ [] ∧
      huffmanDecompress (fun _ => 1) compressed = some [1, 2, 3, 4, 5, 6, 7, 8, 9, 10] :=
  huffman_roundtrip (fun _ => 1) [1, 2, 3, 4, 5, 6, 7, 8, 9, 10] (by decide)
